import Mathlib

/-!
Verification development for the Hugging Face Papers RSS generator
(src/generate_rss.py). The Python source is shallowly embedded below:

* pure string helpers (whitespace collapsing, stripping, the regex-based
  abstract extraction) are translated to executable functions on List Char;
* the HTMLParser subclass PaperExtractor is embedded as an explicit state
  machine over tag/data events (tokenization of the raw markup is done by
  Python's html.parser library, an external collaborator; the repository's
  own code is the three handler callbacks, which are what is embedded);
* paper dictionaries become a Paper structure; dynamically keyed fields
  (description_{lang}, abstractFull_{lang}) become association lists keyed
  by the language code, where a missing key models a missing dict key;
* timestamps are modelled as naturals: the code stores ISO-8601 UTC strings
  whose lexicographic order coincides with chronological order, and only
  their order (for cache pruning) and equality (round-tripping) matter;
* the fallible collaborators (network fetch, translation backend) are
  modelled as oracle parameters, and Python exceptions as Except results.
-/

namespace HFPapers

/-! ## Association-list helpers, modelling Python dict operations.
Python dicts preserve insertion order; assignment to an existing key keeps
its position, assignment to a fresh key appends. -/

/-- First-occurrence lookup in an association list (Python d.get(k) / d[k]). -/
def lookupA {β : Type} : List (String × β) → String → Option β
  | [], _ => none
  | (k', v) :: rest, k => if k' = k then some v else lookupA rest k

/-- Python d[k] = v: replace the value in place if the key exists, else append. -/
def updateA {β : Type} : List (String × β) → String → β → List (String × β)
  | [], k, v => [(k, v)]
  | (k', v') :: rest, k, v =>
    if k' = k then (k, v) :: rest else (k', v') :: updateA rest k v

theorem lookupA_updateA_self {β : Type} (l : List (String × β)) (k : String) (v : β) :
    lookupA (updateA l k v) k = some v := by
  induction l with
  | nil => simp [updateA, lookupA]
  | cons h t ih =>
    obtain ⟨k', v'⟩ := h
    by_cases hk : k' = k <;> simp [updateA, lookupA, hk, ih]

theorem lookupA_updateA_ne {β : Type} (l : List (String × β)) (k k₀ : String) (v : β)
    (h : k ≠ k₀) : lookupA (updateA l k v) k₀ = lookupA l k₀ := by
  induction l with
  | nil => simp [updateA, lookupA, h]
  | cons hd t ih =>
    obtain ⟨k', v'⟩ := hd
    by_cases hk : k' = k
    · subst hk
      simp [updateA, lookupA, h]
    · simp only [updateA, if_neg hk, lookupA]
      by_cases hk0 : k' = k₀ <;> simp [hk0, ih]

theorem lookupA_append_left {β : Type} (l₁ l₂ : List (String × β)) (k : String) (v : β)
    (h : lookupA l₁ k = some v) : lookupA (l₁ ++ l₂) k = some v := by
  induction l₁ with
  | nil => simp [lookupA] at h
  | cons hd t ih =>
    obtain ⟨k', v'⟩ := hd
    by_cases hk : k' = k
    · simpa [lookupA, hk] using h
    · simp only [lookupA, if_neg hk] at h ⊢
      exact ih h

theorem lookupA_append_right {β : Type} (l₁ l₂ : List (String × β)) (k : String)
    (h : lookupA l₁ k = none) : lookupA (l₁ ++ l₂) k = lookupA l₂ k := by
  induction l₁ with
  | nil => simp [lookupA]
  | cons hd t ih =>
    obtain ⟨k', v'⟩ := hd
    by_cases hk : k' = k
    · simp [lookupA, hk] at h
    · simp only [lookupA, if_neg hk] at h ⊢
      exact ih h

theorem mem_of_lookupA {β : Type} (l : List (String × β)) (k : String) (v : β)
    (h : lookupA l k = some v) : (k, v) ∈ l := by
  induction l with
  | nil => simp [lookupA] at h
  | cons hd t ih =>
    obtain ⟨k', v'⟩ := hd
    by_cases hk : k' = k
    · subst hk
      simp [lookupA] at h
      subst h
      exact List.mem_cons_self _ _
    · simp only [lookupA, if_neg hk] at h
      exact List.mem_cons_of_mem _ (ih h)

theorem mem_updateA {β : Type} (l : List (String × β)) (k : String) (v : β) (e : String × β)
    (h : e ∈ updateA l k v) : e ∈ l ∨ e = (k, v) := by
  induction l with
  | nil => simpa [updateA] using h
  | cons hd t ih =>
    obtain ⟨k', v'⟩ := hd
    by_cases hk : k' = k
    · simp only [updateA, if_pos hk] at h
      rcases List.mem_cons.mp h with h1 | h1
      · exact Or.inr h1
      · exact Or.inl (List.mem_cons_of_mem _ h1)
    · simp only [updateA, if_neg hk] at h
      rcases List.mem_cons.mp h with h1 | h1
      · exact Or.inl (h1 ▸ List.mem_cons_self _ _)
      · rcases ih h1 with h2 | h2
        · exact Or.inl (List.mem_cons_of_mem _ h2)
        · exact Or.inr h2

/-! ## Python whitespace utilities.
re's \s and str.strip() match the six ASCII whitespace characters
(space, tab, newline, carriage return, vertical tab, form feed); the
institution strings this program feeds them contain no exotic Unicode
whitespace, so the ASCII class is the faithful model here. -/

/-- The character class matched by Python's \s (ASCII part). -/
def pyIsSpace (c : Char) : Bool :=
  c = ' ' || c = '\t' || c = '\n' || c = '\r' || c = '\x0b' || c = '\x0c'

/-- re.sub(r'\s+', ' ', s), streamed: each maximal whitespace run is
replaced by a single space.  The Boolean records whether we are inside a
whitespace run whose replacement space has already been emitted. -/
def collapseWsAux : Bool → List Char → List Char
  | _, [] => []
  | inRun, c :: cs =>
    if pyIsSpace c then
      if inRun then collapseWsAux true cs else ' ' :: collapseWsAux true cs
    else c :: collapseWsAux false cs

/-- re.sub(r'\s+', ' ', s). -/
def collapseWs (l : List Char) : List Char := collapseWsAux false l

/-- str.strip(): drop leading and trailing whitespace. -/
def pyStrip (l : List Char) : List Char :=
  ((l.dropWhile pyIsSpace).reverse.dropWhile pyIsSpace).reverse

/-- The institution clean-up at article close (generate_rss.py lines 184-188):
collapse whitespace runs, strip, and map an empty result or a bare separator
glyph (the middle dot rendered between institution and date) to "N/A". -/
def normalize_institution (s : String) : String :=
  let t : List Char := pyStrip (collapseWs s.data)
  if t = [] ∨ t = ['·'] ∨ t = ['.'] then "N/A" else String.mk t

/-! ### Structure of normalized institution strings (towards C9) -/

/-- No two adjacent whitespace characters. -/
def noTwoSpaces (a b : Char) : Prop := ¬(pyIsSpace a = true ∧ pyIsSpace b = true)

theorem dropWhile_head?_false (p : Char → Bool) (l : List Char) (x : Char)
    (h : (l.dropWhile p).head? = some x) : p x = false := by
  induction l with
  | nil => simp [List.dropWhile] at h
  | cons c cs ih =>
    by_cases hc : p c
    · simp only [List.dropWhile, hc] at h
      exact ih h
    · simp only [List.dropWhile, hc] at h
      simp only [List.head?, Option.some.injEq] at h
      subst h
      simpa using hc

theorem collapseWsAux_space_mem (l : List Char) (c : Char) (hs : pyIsSpace c = true) :
    ∀ b : Bool, c ∈ collapseWsAux b l → c = ' ' := by
  induction l with
  | nil =>
    intro b hm
    simp [collapseWsAux] at hm
  | cons c0 cs ih =>
    intro b hm
    by_cases h : pyIsSpace c0
    · cases b with
      | true =>
        simp only [collapseWsAux, if_pos h] at hm
        exact ih true hm
      | false =>
        simp only [collapseWsAux, if_pos h] at hm
        rcases List.mem_cons.mp hm with h1 | h1
        · exact h1
        · exact ih true h1
    · simp only [collapseWsAux, if_neg h] at hm
      rcases List.mem_cons.mp hm with h1 | h1
      · subst h1
        exact absurd hs (by simpa using h)
      · exact ih false h1

theorem collapseWsAux_true_head? (l : List Char) (x : Char)
    (h : (collapseWsAux true l).head? = some x) : pyIsSpace x = false := by
  induction l with
  | nil => simp [collapseWsAux] at h
  | cons c cs ih =>
    by_cases hc : pyIsSpace c
    · simp only [collapseWsAux, if_pos hc] at h
      exact ih h
    · simp only [collapseWsAux, if_neg hc, List.head?, Option.some.injEq] at h
      subst h
      simpa using hc

theorem collapseWsAux_chain' (l : List Char) :
    ∀ b : Bool, List.Chain' noTwoSpaces (collapseWsAux b l) := by
  induction l with
  | nil =>
    intro b
    simp [collapseWsAux]
  | cons c cs ih =>
    intro b
    by_cases h : pyIsSpace c
    · cases b with
      | true =>
        simp only [collapseWsAux, if_pos h]
        exact ih true
      | false =>
        simp only [collapseWsAux, if_pos h]
        refine List.chain'_cons'.mpr ⟨?_, ih true⟩
        intro y hy
        have hx : pyIsSpace y = false := collapseWsAux_true_head? cs y hy
        intro hcon
        exact absurd hcon.2 (by simp [hx])
    · simp only [collapseWsAux, if_neg h]
      refine List.chain'_cons'.mpr ⟨?_, ih false⟩
      intro y _
      intro hcon
      exact absurd hcon.1 (by simpa using h)

theorem collapseWs_space_mem (l : List Char) (c : Char) (hs : pyIsSpace c = true)
    (hm : c ∈ collapseWs l) : c = ' ' :=
  collapseWsAux_space_mem l c hs false hm

theorem collapseWs_chain' (l : List Char) :
    List.Chain' noTwoSpaces (collapseWs l) :=
  collapseWsAux_chain' l false

theorem dropWhile_eq_self_of_head (p : Char → Bool) (l : List Char)
    (h : ∀ x, l.head? = some x → p x = false) : l.dropWhile p = l := by
  cases l with
  | nil => simp
  | cons c cs =>
    have := h c (by simp)
    simp [List.dropWhile, this]

theorem collapseWsAux_fixed (t : List Char) :
    ∀ b : Bool, (∀ c ∈ t, pyIsSpace c = true → c = ' ') → List.Chain' noTwoSpaces t →
    (b = true → ∀ x, t.head? = some x → pyIsSpace x = false) →
    collapseWsAux b t = t := by
  induction t with
  | nil =>
    intro b _ _ _
    simp [collapseWsAux]
  | cons c0 cs ih =>
    intro b h1 h2 hb
    obtain ⟨hhead, htail⟩ := List.chain'_cons'.mp h2
    by_cases h : pyIsSpace c0
    · cases b with
      | true => exact absurd h (by simp [hb rfl c0 (by simp)])
      | false =>
        have hc0 : c0 = ' ' := h1 c0 (List.mem_cons_self _ _) h
        have haux : collapseWsAux true cs = cs := by
          apply ih true (fun c hc hcs => h1 c (List.mem_cons_of_mem _ hc) hcs) htail
          intro _ x hx
          by_contra hpx
          exact hhead x hx ⟨h, by simpa using hpx⟩
        subst hc0
        simp [collapseWsAux, h, haux]
    · have haux : collapseWsAux false cs = cs :=
        ih false (fun c hc hcs => h1 c (List.mem_cons_of_mem _ hc) hcs) htail (by simp)
      simp [collapseWsAux, h, haux]

theorem collapseWs_fixed (t : List Char)
    (h1 : ∀ c ∈ t, pyIsSpace c = true → c = ' ')
    (h2 : List.Chain' noTwoSpaces t) : collapseWs t = t :=
  collapseWsAux_fixed t false h1 h2 (by simp)

theorem mem_pyStrip (l : List Char) (c : Char) (h : c ∈ pyStrip l) : c ∈ l := by
  unfold pyStrip at h
  rw [List.mem_reverse] at h
  have h1 : c ∈ (l.dropWhile pyIsSpace).reverse := (List.dropWhile_sublist pyIsSpace).mem h
  rw [List.mem_reverse] at h1
  exact (List.dropWhile_sublist pyIsSpace).mem h1

theorem chain'_dropWhile {R : Char → Char → Prop} (p : Char → Bool) (l : List Char)
    (h : List.Chain' R l) : List.Chain' R (l.dropWhile p) := by
  induction l with
  | nil => simp
  | cons c cs ih =>
    by_cases hc : p c
    · simp only [List.dropWhile, hc]
      exact ih h.tail
    · simpa [List.dropWhile, hc] using h

theorem chain'_reverse_noTwoSpaces (l : List Char) (h : List.Chain' noTwoSpaces l) :
    List.Chain' noTwoSpaces l.reverse := by
  rw [List.chain'_reverse]
  exact List.Chain'.imp (fun a b hab hc => hab ⟨hc.2, hc.1⟩) h

theorem chain'_pyStrip (l : List Char) (h : List.Chain' noTwoSpaces l) :
    List.Chain' noTwoSpaces (pyStrip l) := by
  unfold pyStrip
  exact chain'_reverse_noTwoSpaces _
    (chain'_dropWhile _ _ (chain'_reverse_noTwoSpaces _ (chain'_dropWhile _ _ h)))

theorem pyStrip_getLast? (l : List Char) (x : Char)
    (h : (pyStrip l).getLast? = some x) : pyIsSpace x = false := by
  unfold pyStrip at h
  rw [List.getLast?_reverse] at h
  exact dropWhile_head?_false _ _ _ h

theorem pyStrip_head? (l : List Char) (x : Char)
    (h : (pyStrip l).head? = some x) : pyIsSpace x = false := by
  unfold pyStrip at h
  set a := l.dropWhile pyIsSpace with ha
  have hsplit : a.reverse.takeWhile pyIsSpace ++ a.reverse.dropWhile pyIsSpace = a.reverse :=
    List.takeWhile_append_dropWhile pyIsSpace a.reverse
  have hrev : (a.reverse.dropWhile pyIsSpace).reverse ++ (a.reverse.takeWhile pyIsSpace).reverse
      = a := by
    rw [← List.reverse_append, hsplit, List.reverse_reverse]
  have hhead : a.head? = some x := by
    rw [← hrev, List.head?_append, h]
    rfl
  exact dropWhile_head?_false _ _ _ hhead

theorem pyStrip_eq_self (t : List Char)
    (hh : ∀ x, t.head? = some x → pyIsSpace x = false)
    (hl : ∀ x, t.getLast? = some x → pyIsSpace x = false) : pyStrip t = t := by
  unfold pyStrip
  rw [dropWhile_eq_self_of_head pyIsSpace t hh]
  rw [dropWhile_eq_self_of_head pyIsSpace t.reverse (fun x hx => hl x (by rwa [List.head?_reverse] at hx))]
  exact List.reverse_reverse t

/-- C9: the affiliation normalization (collapse whitespace runs to single
spaces, trim, map an empty result or a bare separator glyph to "N/A") is
idempotent: normalizing an already-normalized string returns it unchanged. -/
theorem normalize_institution_idempotent (s : String) :
    normalize_institution (normalize_institution s) = normalize_institution s := by
  by_cases hc : pyStrip (collapseWs s.data) = [] ∨ pyStrip (collapseWs s.data) = ['·'] ∨
      pyStrip (collapseWs s.data) = ['.']
  · have h1 : normalize_institution s = "N/A" := by
      unfold normalize_institution
      exact if_pos hc
    rw [h1]
    decide
  · have h1 : normalize_institution s = String.mk (pyStrip (collapseWs s.data)) := by
      unfold normalize_institution
      exact if_neg hc
    set t := pyStrip (collapseWs s.data) with ht
    have hfix1 : collapseWs t = t := by
      apply collapseWs_fixed
      · intro c hcmem hcs
        exact collapseWs_space_mem s.data c hcs (mem_pyStrip _ c (ht ▸ hcmem))
      · exact chain'_pyStrip _ (collapseWs_chain' s.data)
    have hfix2 : pyStrip t = t := by
      apply pyStrip_eq_self
      · intro x hx
        exact pyStrip_head? (collapseWs s.data) x (ht ▸ hx)
      · intro x hx
        exact pyStrip_getLast? (collapseWs s.data) x (ht ▸ hx)
    rw [h1]
    unfold normalize_institution
    have hdata : (String.mk t).data = t := rfl
    rw [hdata, hfix1, hfix2, if_neg hc]

/-! ## The record extractor (class PaperExtractor, generate_rss.py lines 130-199).
The Python class subclasses html.parser.HTMLParser; the library tokenizer is an
external collaborator, so the embedding drives the three handler callbacks with
an explicit event stream.  A Python dict-subscript on current_paper = None
raises TypeError, modelled as Except.error. -/

/-- A paper record emitted by the extractor (dict with url/title/institution). -/
structure RawPaper where
  url : String
  title : String
  institution : String
deriving DecidableEq, Repr

/-- The scratch dict self.current_paper: keys url/title, possibly absent. -/
structure Scratch where
  url : Option String := none
  title : Option String := none
deriving DecidableEq, Repr

/-- One event delivered by the markup tokenizer to the handlers. -/
inductive HtmlEvent where
  | startTag (tag : String) (attrs : List (String × String))
  | endTag (tag : String)
  | textData (s : String)
deriving DecidableEq, Repr

/-- The mutable fields of PaperExtractor (its __init__). -/
structure ExtractorState where
  papers : List RawPaper := []
  current_paper : Option Scratch := none
  in_article : Bool := false
  in_h3 : Bool := false
  in_a : Bool := false
  capture_text : Bool := false
  current_text : String := ""
  in_institution_span : Bool := false
  institution_text : String := ""
deriving DecidableEq, Repr

/-- dict(attrs).get(key, dflt): on duplicate keys Python's dict keeps the
last occurrence, hence the reversed first-occurrence lookup. -/
def attrsGet (attrs : List (String × String)) (key dflt : String) : String :=
  match lookupA attrs.reverse key with
  | some v => v
  | none => dflt

/-- substring containment, Python's "pat in s". -/
def strContains (s pat : String) : Bool :=
  go s.data
where
  go : List Char → Bool
    | [] => pat.data.isPrefixOf []
    | c :: cs => pat.data.isPrefixOf (c :: cs) || go cs

/-- handle_starttag, first if block (lines 149-151). -/
def startTagArticle (st0 : ExtractorState) (tag : String) : ExtractorState :=
  if tag = "article" then { st0 with in_article := true, current_paper := some {} } else st0

/-- handle_starttag, second if block (lines 153-154). -/
def startTagH3 (st1 : ExtractorState) (tag : String) : ExtractorState :=
  if st1.in_article ∧ tag = "h3" then { st1 with in_h3 := true } else st1

/-- handle_starttag, third if block (lines 156-162).  A subscript assignment
on current_paper = None raises TypeError (Except.error). -/
def startTagA (st2 : ExtractorState) (tag : String) (attrs : List (String × String)) :
    Except Unit ExtractorState :=
  if st2.in_h3 ∧ tag = "a" then
    if attrsGet attrs "href" "" ≠ "" then
      match st2.current_paper with
      | none => Except.error ()
      | some cp => Except.ok
          { st2 with
            in_a := true,
            current_paper := some
              { cp with url := some ("https://huggingface.co" ++ attrsGet attrs "href" "") },
            capture_text := true,
            current_text := "" }
    else Except.ok { st2 with in_a := true, capture_text := true, current_text := "" }
  else Except.ok st2

/-- handle_starttag, fourth if block (lines 164-167). -/
def startTagSpan (st3 : ExtractorState) (tag class_name : String) : ExtractorState :=
  if st3.in_article ∧ ¬ st3.in_h3 ∧ ¬ st3.in_a ∧ tag = "span" ∧
      strContains class_name "truncate" = true ∧ strContains class_name "font-medium" = true
  then { st3 with in_institution_span := true, institution_text := "" } else st3

/-- handle_starttag (lines 145-167): the four if blocks in sequence. -/
def handle_starttag (st0 : ExtractorState) (tag : String)
    (attrs : List (String × String)) : Except Unit ExtractorState :=
  (startTagA (startTagH3 (startTagArticle st0 tag) tag) tag attrs).map
    (fun st3 => startTagSpan st3 tag (attrsGet attrs "class" ""))

/-- handle_endtag, first if block (lines 170-174).  A subscript assignment
on current_paper = None raises TypeError (Except.error). -/
def endTagA (st0 : ExtractorState) (tag : String) : Except Unit ExtractorState :=
  if tag = "a" ∧ st0.in_a then
    if st0.current_text ≠ "" then
      match st0.current_paper with
      | none => Except.error ()
      | some cp => Except.ok
          { st0 with
            in_a := false,
            current_paper := some { cp with title := some (String.mk (pyStrip st0.current_text.data)) },
            capture_text := false }
    else Except.ok { st0 with in_a := false, capture_text := false }
  else Except.ok st0

/-- handle_endtag, second if block (lines 176-177). -/
def endTagH3 (st1 : ExtractorState) (tag : String) : ExtractorState :=
  if tag = "h3" ∧ st1.in_h3 then { st1 with in_h3 := false } else st1

/-- handle_endtag, third if block (lines 179-180). -/
def endTagSpan (st2 : ExtractorState) (tag : String) : ExtractorState :=
  if tag = "span" ∧ st2.in_institution_span then
    { st2 with in_institution_span := false } else st2

/-- handle_endtag, fourth if block (lines 182-192): at article close a
complete scratch record is normalized and emitted; an incomplete one
(missing or falsy url/title) is silently dropped. -/
def endTagArticle (st3 : ExtractorState) (tag : String) : ExtractorState :=
  if tag = "article" ∧ st3.in_article then
    { (match st3.current_paper with
       | some cp =>
         match cp.title, cp.url with
         | some t, some u =>
           if t ≠ "" ∧ u ≠ "" then
             { st3 with
               papers := st3.papers ++
                 [{ url := u,
                    title := t,
                    institution := normalize_institution st3.institution_text }] }
           else st3
         | _, _ => st3
       | none => st3 : ExtractorState) with
      in_article := false,
      current_paper := none,
      institution_text := "" }
  else st3

/-- handle_endtag (lines 169-192): the four if blocks in sequence. -/
def handle_endtag (st0 : ExtractorState) (tag : String) : Except Unit ExtractorState :=
  (endTagA st0 tag).map (fun st1 => endTagArticle (endTagSpan (endTagH3 st1 tag) tag) tag)

/-- handle_data (lines 194-199). -/
def handle_data (st0 : ExtractorState) (s : String) : ExtractorState :=
  let st1 := if st0.capture_text then { st0 with current_text := st0.current_text ++ s } else st0
  if st1.in_institution_span then { st1 with institution_text := st1.institution_text ++ s }
  else st1

/-- One tokenizer event dispatched to the matching handler. -/
def extractorStep (st : ExtractorState) : HtmlEvent → Except Unit ExtractorState
  | HtmlEvent.startTag t a => handle_starttag st t a
  | HtmlEvent.endTag t => handle_endtag st t
  | HtmlEvent.textData s => Except.ok (handle_data st s)

/-- parser.feed(html): run the machine from the freshly constructed state. -/
def runExtractor (events : List HtmlEvent) : Except Unit ExtractorState :=
  events.foldlM extractorStep {}

/-! ### Extractor invariant (towards C2) -/

/-- Every emitted record has a non-empty identity and a non-empty title. -/
def papersOk (l : List RawPaper) : Prop := ∀ p ∈ l, p.url ≠ "" ∧ p.title ≠ ""

theorem startTagArticle_papers (st : ExtractorState) (t : String) :
    (startTagArticle st t).papers = st.papers := by
  unfold startTagArticle
  split <;> rfl

theorem startTagH3_papers (st : ExtractorState) (t : String) :
    (startTagH3 st t).papers = st.papers := by
  unfold startTagH3
  split <;> rfl

theorem startTagSpan_papers (st : ExtractorState) (t c : String) :
    (startTagSpan st t c).papers = st.papers := by
  unfold startTagSpan
  split <;> rfl

theorem startTagA_papers (st st' : ExtractorState) (t : String)
    (a : List (String × String)) (h : startTagA st t a = Except.ok st') :
    st'.papers = st.papers := by
  unfold startTagA at h
  repeat' split at h
  all_goals cases h
  all_goals rfl

theorem handle_starttag_papers (st st' : ExtractorState) (t : String)
    (a : List (String × String)) (h : handle_starttag st t a = Except.ok st') :
    st'.papers = st.papers := by
  unfold handle_starttag at h
  cases hA : startTagA (startTagH3 (startTagArticle st t) t) t a with
  | error e =>
    rw [hA] at h
    simp [Except.map] at h
  | ok st3 =>
    rw [hA] at h
    simp only [Except.map, Option.map] at h
    injection h with h
    rw [← h, startTagSpan_papers, startTagA_papers _ _ _ _ hA,
      startTagH3_papers, startTagArticle_papers]

theorem handle_data_papers (st : ExtractorState) (s : String) :
    (handle_data st s).papers = st.papers := by
  simp only [handle_data]
  repeat' split
  all_goals rfl

theorem endTagA_papers (st st' : ExtractorState) (t : String)
    (h : endTagA st t = Except.ok st') : st'.papers = st.papers := by
  unfold endTagA at h
  repeat' split at h
  all_goals cases h
  all_goals rfl

theorem endTagH3_papers (st : ExtractorState) (t : String) :
    (endTagH3 st t).papers = st.papers := by
  unfold endTagH3
  split <;> rfl

theorem endTagSpan_papers (st : ExtractorState) (t : String) :
    (endTagSpan st t).papers = st.papers := by
  unfold endTagSpan
  split <;> rfl

theorem endTagArticle_papers (st : ExtractorState) (t : String) :
    (endTagArticle st t).papers = st.papers ∨
    ∃ u ti inst, u ≠ "" ∧ ti ≠ "" ∧
      (endTagArticle st t).papers = st.papers ++
        [{ url := u, title := ti, institution := inst }] := by
  unfold endTagArticle
  repeat' split
  all_goals try (exact Or.inl rfl)
  next hne =>
    exact Or.inr ⟨_, _, _, hne.2, hne.1, rfl⟩

theorem handle_endtag_papers (st st' : ExtractorState) (t : String)
    (h : handle_endtag st t = Except.ok st') :
    st'.papers = st.papers ∨
    ∃ u ti inst, u ≠ "" ∧ ti ≠ "" ∧
      st'.papers = st.papers ++ [{ url := u, title := ti, institution := inst }] := by
  unfold handle_endtag at h
  cases hA : endTagA st t with
  | error e =>
    rw [hA] at h
    simp [Except.map] at h
  | ok st1 =>
    rw [hA] at h
    simp only [Except.map] at h
    injection h with h
    have h1 : st1.papers = st.papers := endTagA_papers st st1 t hA
    have h23 : (endTagSpan (endTagH3 st1 t) t).papers = st1.papers := by
      rw [endTagSpan_papers, endTagH3_papers]
    rcases endTagArticle_papers (endTagSpan (endTagH3 st1 t) t) t with h4 | ⟨u, ti, inst, hu, hti, h4⟩
    · rw [← h, h4, h23, h1]
      exact Or.inl rfl
    · rw [← h, h4, h23, h1]
      exact Or.inr ⟨u, ti, inst, hu, hti, rfl⟩

theorem extractorStep_inv (st st' : ExtractorState) (e : HtmlEvent)
    (h : extractorStep st e = Except.ok st') (hok : papersOk st.papers) :
    papersOk st'.papers := by
  cases e with
  | startTag t a =>
    rw [handle_starttag_papers st st' t a h]
    exact hok
  | endTag t =>
    rcases handle_endtag_papers st st' t h with h1 | ⟨u, ti, inst, hu, hti, h1⟩
    · rw [h1]; exact hok
    · rw [h1]
      intro p hp
      rcases List.mem_append.mp hp with hp1 | hp1
      · exact hok p hp1
      · rcases List.mem_singleton.mp hp1 with rfl
        exact ⟨hu, hti⟩
  | textData s =>
    simp only [extractorStep] at h
    injection h with h
    rw [← h, handle_data_papers]
    exact hok

theorem runExtractor_inv_aux (events : List HtmlEvent) :
    ∀ st0 st : ExtractorState, papersOk st0.papers →
    List.foldlM extractorStep st0 events = Except.ok st → papersOk st.papers := by
  induction events with
  | nil =>
    intro st0 st h0 hrun
    simp only [List.foldlM] at hrun
    injection hrun with hrun
    rw [← hrun]
    exact h0
  | cons e es ih =>
    intro st0 st h0 hrun
    rw [List.foldlM_cons] at hrun
    cases hstep : extractorStep st0 e with
    | error err =>
      rw [hstep] at hrun
      simp [Bind.bind, Except.bind] at hrun
    | ok st1 =>
      rw [hstep] at hrun
      simp only [Bind.bind, Except.bind] at hrun
      exact ih st1 st (extractorStep_inv st0 st1 e hstep h0) hrun

theorem handle_endtag_article_drop (st : ExtractorState) (cp : Scratch)
    (hcp : st.current_paper = some cp)
    (hmiss : cp.url.getD "" = "" ∨ cp.title.getD "" = "") :
    handle_endtag st "article" =
      Except.ok (if st.in_article then
        { st with in_article := false, current_paper := none, institution_text := "" }
      else st) := by
  unfold handle_endtag
  have hA : endTagA st "article" = Except.ok st := by
    unfold endTagA
    rw [if_neg (by simp : ¬(("article" : String) = "a" ∧ st.in_a = true))]
  have h3 : endTagH3 st "article" = st := by
    unfold endTagH3
    rw [if_neg (by simp : ¬(("article" : String) = "h3" ∧ st.in_h3 = true))]
  have hsp : endTagSpan st "article" = st := by
    unfold endTagSpan
    rw [if_neg (by simp : ¬(("article" : String) = "span" ∧ st.in_institution_span = true))]
  rw [hA]
  simp only [Except.map]
  rw [h3, hsp]
  unfold endTagArticle
  by_cases hart : st.in_article = true
  · rw [if_pos (⟨rfl, hart⟩ : ("article" : String) = "article" ∧ st.in_article = true),
      if_pos hart, hcp]
    obtain ⟨cpu, cpt⟩ := cp
    cases cpt with
    | none =>
      cases cpu <;> rfl
    | some t =>
      cases cpu with
      | none => rfl
      | some u =>
        have hguard : ¬(t ≠ "" ∧ u ≠ "") := by
          rcases hmiss with hm | hm
          · intro hg
            exact hg.2 (by simpa using hm)
          · intro hg
            exact hg.1 (by simpa using hm)
        dsimp only
        rw [if_neg hguard]
  · rw [if_neg (fun hand => hart hand.2), if_neg hart]

/-- C2: every RawPaper the extractor emits on any event stream has a
non-empty identity (url) and a non-empty title; and at article close a
scratch record missing either field is silently dropped (the close handler
returns ok and leaves the emitted list unchanged). -/
theorem extractor_emits_nonempty :
    (∀ (events : List HtmlEvent) (st : ExtractorState),
      runExtractor events = Except.ok st → ∀ p ∈ st.papers, p.url ≠ "" ∧ p.title ≠ "")
    ∧ (∀ (st : ExtractorState) (cp : Scratch), st.current_paper = some cp →
        (cp.url.getD "" = "" ∨ cp.title.getD "" = "") →
        ∃ st', handle_endtag st "article" = Except.ok st' ∧ st'.papers = st.papers) := by
  constructor
  · intro events st hrun
    exact runExtractor_inv_aux events {} st (by intro p hp; simp at hp) hrun
  · intro st cp hcp hmiss
    refine ⟨_, handle_endtag_article_drop st cp hcp hmiss, ?_⟩
    by_cases hart : st.in_article = true
    · rw [if_pos hart]
    · rw [if_neg hart]

/-! ## Detail-page extraction (extract_abstracts, generate_rss.py lines 216-274).
The Python regexes are compiled to explicit character-level matchers with the
same first-match and greedy/lazy backtracking semantics:
  - a greedy character class that cannot cross its follow set is a dropWhile;
  - a lazy group up to a literal delimiter is a split at its first occurrence;
  - the one pattern with real backtracking (the short-abstract div) is an
    explicit last-to-first search over the candidate split points. -/

/-- Substring containment on character lists (Python's "pat in s"). -/
def listContains : List Char → List Char → Bool
  | [], pat => pat.isPrefixOf []
  | c :: cs, pat => pat.isPrefixOf (c :: cs) || listContains cs pat

/-- Regex fragment [^>]*> : drop up to the first '>', consume it,
return the remainder; none when there is no '>'. -/
def skipNonGt (l : List Char) : Option (List Char) :=
  match l.dropWhile (fun c => c ≠ '>') with
  | _ :: r => some r
  | [] => none

theorem dropWhile_length_le {α : Type} (p : α → Bool) (l : List α) :
    (l.dropWhile p).length ≤ l.length := by
  induction l with
  | nil => simp
  | cons c cs ih =>
    by_cases h : p c
    · simp only [List.dropWhile, h]
      exact Nat.le_succ_of_le ih
    · simp [List.dropWhile, h]

theorem skipNonGt_length (l r : List Char) (h : skipNonGt l = some r) :
    r.length < l.length := by
  unfold skipNonGt at h
  cases hd : l.dropWhile (fun c => c ≠ '>') with
  | nil => rw [hd] at h; exact absurd h (by simp)
  | cons x xs =>
    rw [hd] at h
    injection h with h
    subst h
    have h1 : (x :: xs).length ≤ l.length := hd ▸ dropWhile_length_le _ l
    simp only [List.length_cons] at h1
    omega

/-- re.search for a literal pattern: split the input at the first occurrence
of pat, returning (text before, text after the occurrence). -/
def splitAtSub (pat : List Char) : List Char → Option (List Char × List Char)
  | [] => if pat.isPrefixOf [] then some ([], []) else none
  | c :: cs =>
    if pat.isPrefixOf (c :: cs) then some ([], (c :: cs).drop pat.length)
    else
      match splitAtSub pat cs with
      | some (a, b) => some (c :: a, b)
      | none => none

theorem splitAtSub_length (pat : List Char) (hp : pat ≠ []) :
    ∀ (l a b : List Char), splitAtSub pat l = some (a, b) → b.length < l.length := by
  intro l
  induction l with
  | nil =>
    intro a b h
    unfold splitAtSub at h
    rw [if_neg (by cases pat with
      | nil => exact absurd rfl hp
      | cons p ps => simp [List.isPrefixOf])] at h
    exact absurd h (by simp)
  | cons c cs ih =>
    intro a b h
    unfold splitAtSub at h
    by_cases hpre : pat.isPrefixOf (c :: cs) = true
    · rw [if_pos hpre] at h
      injection h with h
      have hb : b = (c :: cs).drop pat.length := by
        have := congrArg Prod.snd h
        simpa using this.symm
      subst hb
      have hlen : pat.length ≥ 1 := by
        cases pat with
        | nil => exact absurd rfl hp
        | cons p ps => simp
      simp only [List.length_drop, List.length_cons]
      omega
    · rw [if_neg hpre] at h
      cases hrec : splitAtSub pat cs with
      | none => rw [hrec] at h; exact absurd h (by simp)
      | some ab =>
        obtain ⟨a0, b0⟩ := ab
        rw [hrec] at h
        injection h with h
        have hb : b = b0 := by
          have := congrArg Prod.snd h
          simpa using this.symm
        subst hb
        have h2 := ih a0 b hrec
        simp only [List.length_cons]
        omega

/-- Regex fragment [^>]+> starting right after a '<': at least one
non-'>' character, then up to and including the first '>'. -/
def tagEnd : List Char → Option (List Char)
  | [] => none
  | c :: cs => if c = '>' then none else skipNonGt cs

theorem tagEnd_length (l r : List Char) (h : tagEnd l = some r) : r.length < l.length := by
  cases l with
  | nil => exact absurd h (by simp [tagEnd])
  | cons c cs =>
    simp only [tagEnd] at h
    by_cases hc : c = '>'
    · rw [if_pos hc] at h
      exact absurd h (by simp)
    · rw [if_neg hc] at h
      have := skipNonGt_length cs r h
      simp only [List.length_cons]
      omega

/-- re.sub(r'<[^>]+>', '', s): delete every tag-like run. -/
def stripTags : List Char → List Char
  | [] => []
  | c :: cs =>
    if c = '<' then
      match he : tagEnd cs with
      | some rest => stripTags rest
      | none => c :: stripTags cs
    else c :: stripTags cs
termination_by l => l.length
decreasing_by
  all_goals simp_wf
  all_goals try omega
  all_goals (have h := tagEnd_length cs rest he; omega)

/-- Regex fragment <p[^>]*> at the current position. -/
def matchPOpen (l : List Char) : Option (List Char) :=
  if "<p".data.isPrefixOf l then skipNonGt (l.drop 2) else none

theorem matchPOpen_length (l r : List Char) (h : matchPOpen l = some r) :
    r.length < l.length := by
  unfold matchPOpen at h
  by_cases hpre : "<p".data.isPrefixOf l = true
  · rw [if_pos hpre] at h
    have h1 := skipNonGt_length _ _ h
    have h2 : (l.drop 2).length ≤ l.length := by
      simp only [List.length_drop]
      omega
    omega
  · rw [if_neg hpre] at h
    exact absurd h (by simp)

/-- re.findall(r'<p[^>]*>(.*?)</p>', s, re.DOTALL): scan left to right; at
each match, emit the lazy group and resume after the closing tag. -/
def findPTags : List Char → List (List Char)
  | [] => []
  | c :: cs =>
    match hm : matchPOpen (c :: cs) with
    | some rest =>
      match hs : splitAtSub "</p>".data rest with
      | some (grp, after) => grp :: findPTags after
      | none => findPTags cs
    | none => findPTags cs
termination_by l => l.length
decreasing_by
  all_goals simp_wf
  · have h1 := matchPOpen_length _ _ hm
    have h2 := splitAtSub_length "</p>".data (by simp) rest grp after hs
    simp only [List.length_cons] at h1
    omega
  all_goals omega

/-- re.search(r'<h2[^>]*>Abstract</h2>', s) tried at one position; on a hit,
returns the suffix after the match (re's match.end()). -/
def matchH2AbstractAt (l : List Char) : Option (List Char) :=
  if "<h2".data.isPrefixOf l then
    match skipNonGt (l.drop 3) with
    | some rest =>
      if "Abstract</h2>".data.isPrefixOf rest then some (rest.drop 13) else none
    | none => none
  else none

/-- re.search(r'<h2[^>]*>Abstract</h2>', s): first position with a hit. -/
def searchH2Abstract : List Char → Option (List Char)
  | [] => none
  | c :: cs =>
    match matchH2AbstractAt (c :: cs) with
    | some r => some r
    | none => searchH2Abstract cs

/-- re.search(r'<h2', s) on the tail: the text before the next h2 boundary
(html[start : start + next_h2.start()]). -/
def splitAtLtH2 (l : List Char) : Option (List Char) :=
  (splitAtSub "<h2".data l).map (fun r => r.1)

/-- re.sub(r'^AI-generated summary\s*', '', s): strip the boilerplate
lead-in, if present at the very start. -/
def stripBoiler (l : List Char) : List Char :=
  if "AI-generated summary".data.isPrefixOf l then (l.drop 20).dropWhile pyIsSpace else l

/-- The candidate remainders after an occurrence of the literal piece
class=" whose preceding characters (inside the div tag) are all non-'>',
listed first-to-last.  These are the regex engine's choice points for the
greedy [^>]* in <div[^>]*class=". -/
def classSplits : List Char → List (List Char)
  | [] => []
  | c :: cs =>
    (if "class=\"".data.isPrefixOf (c :: cs) then [(c :: cs).drop 7] else []) ++
    (if c ≠ '>' then classSplits cs else [])

/-- Continuation of the short-abstract pattern after a chosen class="
occurrence: [^"]*pb-8 pr-4 md:pr-16[^"]*" then [^>]*> then the lazy group
up to the first closing div. -/
def contAfterClass (rem : List Char) : Option (List Char) :=
  if listContains (rem.takeWhile (fun c => c ≠ '"')) "pb-8 pr-4 md:pr-16".data then
    match rem.dropWhile (fun c => c ≠ '"') with
    | _ :: afterQ =>
      match skipNonGt afterQ with
      | some afterGt => (splitAtSub "</div>".data afterGt).map (fun r => r.1)
      | none => none
    | [] => none
  else none

/-- The short-abstract regex tried at one position: a greedy engine takes
the class=" choice points from last to first. -/
def matchDivShortAt (l : List Char) : Option (List Char) :=
  if "<div".data.isPrefixOf l then
    ((classSplits (l.drop 4)).reverse).findSome? contAfterClass
  else none

/-- re.search of the short-abstract pattern
<div[^>]*class="[^"]*pb-8 pr-4 md:pr-16[^"]*"[^>]*>(.*?)</div>. -/
def searchDivShort : List Char → Option (List Char)
  | [] => none
  | c :: cs =>
    match matchDivShortAt (c :: cs) with
    | some r => some r
    | none => searchDivShort cs

/-- The two abstract fields extracted by extract_abstracts (lines 216-248).
The author and arXiv-link extraction of the same function writes only the
authors/arxiv_abs/arxiv_pdf fields and does not feed into these two. -/
structure AbstractResult where
  abstract_short : List Char
  abstract_full : List Char
deriving DecidableEq, Repr

/-- extract_abstracts, abstract fields: the short abstract with tags
stripped (or the "[Not available]" sentinel), and the full abstract taken
from the second p block between the Abstract heading and the next h2
boundary, falling back to the short abstract. -/
def extract_abstracts (html : List Char) : AbstractResult :=
  let short : List Char :=
    match searchDivShort html with
    | some g => pyStrip (stripTags g)
    | none => "[Not available]".data
  let full : List Char :=
    match searchH2Abstract html with
    | some rest =>
      match splitAtLtH2 rest with
      | some seg =>
        match findPTags seg with
        | _ :: p1 :: _ => stripBoiler (pyStrip (stripTags p1))
        | _ => short
      | none => short
    | none => short
  { abstract_short := short, abstract_full := full }

/-- C4: if the Abstract heading is found but fewer than two paragraph
blocks occur before the next heading boundary, or no Abstract heading is
found at all, the full abstract equals exactly the short abstract extracted
from the same input. -/
theorem extract_abstracts_fallback (html : List Char)
    (h : searchH2Abstract html = none ∨
      ∃ rest seg, searchH2Abstract html = some rest ∧ splitAtLtH2 rest = some seg ∧
        (findPTags seg).length < 2) :
    (extract_abstracts html).abstract_full = (extract_abstracts html).abstract_short := by
  unfold extract_abstracts
  rcases h with h | ⟨rest, seg, h1, h2, h3⟩
  · rw [h]
  · simp only [h1, h2]
    cases hfp : findPTags seg with
    | nil => simp [hfp]
    | cons p ps =>
      cases ps with
      | nil => simp [hfp]
      | cons p1 ps' =>
        rw [hfp] at h3
        simp only [List.length_cons] at h3
        omega

theorem extract_abstracts_fallback_witness :
    searchH2Abstract "no heading here".data = none ∧
    (extract_abstracts "no heading here".data).abstract_full =
      (extract_abstracts "no heading here".data).abstract_short :=
  ⟨by decide, extract_abstracts_fallback "no heading here".data (Or.inl (by decide))⟩

/-! ## Paper records, translation and per-paper processing
(translate_with_retry and process_paper, generate_rss.py lines 276-350).
A paper dict becomes a structure; fields the code reads with .get become
Options, dynamically keyed translation fields (description_{lang},
abstractFull_{lang}) become association lists keyed by language, where a
missing key models a missing dict key.  pub_date strings are modelled as
naturals (only assignment order matters).  The translation backend and the
detail fetch are oracle parameters; a Python exception is Except.error. -/

structure Paper where
  title : String
  url : String
  institution : Option String := none
  abstract : Option String := none
  abstract_short : Option String := none
  arxiv_abs : Option String := none
  arxiv_pdf : Option String := none
  authors : List String := []
  pub_date : Option Nat := none
  description_t : List (String × String) := []
  abstractFull_t : List (String × String) := []
deriving DecidableEq, Repr

/-- The dict returned by extract_abstracts, as consumed by process_paper
(abstract fields plus authors and arXiv links). -/
structure Details where
  abstract_short : String
  abstract_full : String
  arxiv_abs : Option String := none
  arxiv_pdf : Option String := none
  authors : List String := []
deriving DecidableEq, Repr

/-- translate_with_retry (lines 276-286): try the backend up to max_retries
times, return the first success, fall back to the original text when every
attempt fails.  The backend is the oracle attempt : attempt index -> result. -/
def translate_with_retry (attempt : Nat → Option String) (text : String)
    (max_retries : Nat) : String :=
  match (List.range max_retries).findSome? attempt with
  | some r => r
  | none => text

/-- The translation loop over TARGET_LANGUAGES for one source text (lines
332-342): Python's paper[field_name] = ... on the association list. -/
def translateInto (tr : String → String → Nat → Option String) (langs : List String)
    (max_retries : Nat) (text : String) (fields : List (String × String)) :
    List (String × String) :=
  langs.foldl (fun acc lang => updateA acc lang (translate_with_retry (tr text lang) text max_retries)) fields

/-- process_paper, fresh path after a successful detail fetch (lines
317-345): merge the extracted details into the record, then translate the
short and full abstracts unless empty or the "[Not available]" sentinel. -/
def process_paper_fresh (tr : String → String → Nat → Option String) (langs : List String)
    (max_retries : Nat) (p : Paper) (d : Details) : Paper :=
  let p1 : Paper :=
    { p with
      abstract := some d.abstract_full,
      abstract_short := some d.abstract_short,
      arxiv_abs := d.arxiv_abs,
      arxiv_pdf := d.arxiv_pdf,
      authors := d.authors }
  let p2 : Paper :=
    if d.abstract_short ≠ "" ∧ d.abstract_short ≠ "[Not available]" then
      { p1 with description_t := translateInto tr langs max_retries d.abstract_short p1.description_t }
    else p1
  if d.abstract_full ≠ "" ∧ d.abstract_full ≠ "[Not available]" then
    { p2 with abstractFull_t := translateInto tr langs max_retries d.abstract_full p2.abstractFull_t }
  else p2

/-- process_paper, uncached record (lines 316-350): the fetch+extract step
either yields details or raises; the except branch keeps the record and
writes an error marker into both abstract fields. -/
def process_paper_uncached (fetchRes : Except String Details)
    (tr : String → String → Nat → Option String) (langs : List String)
    (max_retries : Nat) (p : Paper) : Paper :=
  match fetchRes with
  | Except.error e =>
    { p with
      abstract := some ("[Error: " ++ e ++ "]"),
      abstract_short := some ("[Error: " ++ e ++ "]") }
  | Except.ok d => process_paper_fresh tr langs max_retries p d

/-! ### The cache entry and the cached path of process_paper -/

/-- The nested translations object persisted per cache entry. -/
structure Translations where
  descriptions : List (String × String) := []
  abstract_fulls : List (String × String) := []
deriving DecidableEq, Repr

/-- A full cache entry (the paper_cache values written by
save_processed_papers, lines 87-102). -/
structure CacheEntry where
  title : String
  url : String
  institution : String
  abstract : String
  abstract_short : String
  arxiv_abs : Option String
  arxiv_pdf : Option String
  authors : List String
  pub_date : Option Nat
  translations : Translations
deriving DecidableEq, Repr

/-- process_paper, cached path (lines 291-314): rebuild the record from the
cache entry; every configured language gets description_{lang} and
abstractFull_{lang} set, to the cached translation or "" when that language
is absent from the cached mapping.  The wall-clock default inside
paper.get('pub_date', cached_paper.get('pub_date', now)) applies only when
the entry lacks the pub_date key, which cannot happen for entries the save
path writes (they always set it, possibly to None, the Option here), so it
is not modelled. -/
def process_paper_cached (langs : List String) (cached : CacheEntry) (p : Paper) : Paper :=
  { title := cached.title,
    url := cached.url,
    institution := some cached.institution,
    abstract := some cached.abstract,
    abstract_short := some cached.abstract_short,
    arxiv_abs := cached.arxiv_abs,
    arxiv_pdf := cached.arxiv_pdf,
    authors := cached.authors,
    pub_date := match p.pub_date with
      | some d => some d
      | none => cached.pub_date,
    description_t := langs.map (fun lang => (lang, (lookupA cached.translations.descriptions lang).getD "")),
    abstractFull_t := langs.map (fun lang => (lang, (lookupA cached.translations.abstract_fulls lang).getD "")) }

/-! ## Order-preserving aggregation (scrape_papers, lines 400-420).
results = [None] * len(papers); each finished future writes its own slot
results[index]; the loop runs in completion order, modelled as an arbitrary
permutation of the indices.  process_paper is deterministic in its record,
so the value written for index i is a function outcome i of the index
alone.  Finally results is reversed (results[::-1]). -/

/-- The as_completed collection loop over the pre-sized slot list. -/
def collectResults (outcome : Nat → Paper) (perm : List Nat) (n : Nat) : List (Option Paper) :=
  perm.foldl (fun acc i => acc.set i (some (outcome i))) (List.replicate n none)

/-- results[::-1] (line 420): newest-first output. -/
def scrapeOutput (outcome : Nat → Paper) (perm : List Nat) (n : Nat) : List (Option Paper) :=
  (collectResults outcome perm n).reverse

theorem collect_foldl_not_mem (outcome : Nat → Paper) :
    ∀ (perm : List Nat) (init : List (Option Paper)) (j : Nat), j ∉ perm →
    (perm.foldl (fun acc i => acc.set i (some (outcome i))) init)[j]? = init[j]? := by
  intro perm
  induction perm with
  | nil =>
    intro init j _
    rfl
  | cons i rest ih =>
    intro init j hj
    rw [List.foldl_cons]
    have hji : j ≠ i := fun h => hj (h ▸ List.mem_cons_self i rest)
    have hrest : j ∉ rest := fun h => hj (List.mem_cons_of_mem i h)
    rw [ih (init.set i (some (outcome i))) j hrest]
    rw [List.getElem?_set]
    simp [Ne.symm hji]

theorem collect_foldl_mem (outcome : Nat → Paper) :
    ∀ (perm : List Nat) (init : List (Option Paper)) (j : Nat), j < init.length → j ∈ perm →
    (perm.foldl (fun acc i => acc.set i (some (outcome i))) init)[j]? =
      some (some (outcome j)) := by
  intro perm
  induction perm with
  | nil =>
    intro init j _ hj
    simp at hj
  | cons i rest ih =>
    intro init j hlen hj
    rw [List.foldl_cons]
    by_cases hr : j ∈ rest
    · exact ih (init.set i (some (outcome i))) j (by simpa using hlen) hr
    · have hji : j = i := by
        rcases List.mem_cons.mp hj with h | h
        · exact h
        · exact absurd h hr
      subst hji
      rw [collect_foldl_not_mem outcome rest _ j hr]
      rw [List.getElem?_set]
      simp [hlen]

/-- C3: whatever the completion order of the worker futures, collect places
each result at its original listing position, and after the final reversal
the record at original listing position 0 is the last element. -/
theorem collect_restores_order (outcome : Nat → Paper) (n : Nat) (perm : List Nat)
    (hperm : perm.Perm (List.range n)) (hn : 0 < n) :
    (∀ j < n, (collectResults outcome perm n)[j]? = some (some (outcome j)))
    ∧ (scrapeOutput outcome perm n).getLast? = some (some (outcome 0)) := by
  have hmem : ∀ j < n, j ∈ perm := by
    intro j hj
    exact hperm.mem_iff.mpr (List.mem_range.mpr hj)
  have hmain : ∀ j < n, (collectResults outcome perm n)[j]? = some (some (outcome j)) := by
    intro j hj
    exact collect_foldl_mem outcome perm (List.replicate n none) j
      (by simpa using hj) (hmem j hj)
  refine ⟨hmain, ?_⟩
  unfold scrapeOutput
  rw [List.getLast?_reverse]
  rw [List.head?_eq_getElem?]
  exact hmain 0 hn

theorem collect_restores_order_witness :
    (([1, 0] : List Nat).Perm (List.range 2) ∧ 0 < 2)
    ∧ (collectResults (fun i => { title := "t", url := "u", pub_date := some i }) [1, 0] 2)[0]? =
        some (some { title := "t", url := "u", pub_date := some 0 })
    ∧ (scrapeOutput (fun i => { title := "t", url := "u", pub_date := some i }) [1, 0] 2).getLast? =
        some (some { title := "t", url := "u", pub_date := some 0 }) := by
  refine ⟨⟨by decide, by decide⟩, ?_, ?_⟩
  · exact (collect_restores_order (fun i => { title := "t", url := "u", pub_date := some i })
      2 [1, 0] (by decide) (by decide)).1 0 (by decide)
  · exact (collect_restores_order (fun i => { title := "t", url := "u", pub_date := some i })
      2 [1, 0] (by decide) (by decide)).2

/-! ### Theorems for the translation stage and per-record error handling -/

/-- C5: if the translation backend fails on every retry attempt,
translate_with_retry returns the original input text (and raises nothing,
being total); and on the fresh path a source text that is empty or the
"[Not available]" sentinel gets no translated field at all: the
description_{lang} (resp. abstractFull_{lang}) fields are exactly those of
the incoming record, hence absent when they were absent. -/
theorem translation_fallback_and_skip :
    (∀ (attempt : Nat → Option String) (text : String) (max_retries : Nat),
      (∀ i < max_retries, attempt i = none) →
      translate_with_retry attempt text max_retries = text)
    ∧ (∀ (tr : String → String → Nat → Option String) (langs : List String)
        (max_retries : Nat) (p : Paper) (d : Details),
        d.abstract_short = "" ∨ d.abstract_short = "[Not available]" →
        (process_paper_fresh tr langs max_retries p d).description_t = p.description_t)
    ∧ (∀ (tr : String → String → Nat → Option String) (langs : List String)
        (max_retries : Nat) (p : Paper) (d : Details),
        d.abstract_full = "" ∨ d.abstract_full = "[Not available]" →
        (process_paper_fresh tr langs max_retries p d).abstractFull_t = p.abstractFull_t) := by
  refine ⟨?_, ?_, ?_⟩
  · intro attempt text max_retries h
    unfold translate_with_retry
    have hnone : (List.range max_retries).findSome? attempt = none := by
      rw [List.findSome?_eq_none_iff]
      intro i hi
      exact h i (List.mem_range.mp hi)
    rw [hnone]
  · intro tr langs max_retries p d h
    simp only [process_paper_fresh]
    have hguard : ¬(d.abstract_short ≠ "" ∧ d.abstract_short ≠ "[Not available]") := by
      rcases h with h | h
      · exact fun hg => hg.1 h
      · exact fun hg => hg.2 h
    rw [if_neg hguard]
    split <;> rfl
  · intro tr langs max_retries p d h
    simp only [process_paper_fresh]
    have hguard : ¬(d.abstract_full ≠ "" ∧ d.abstract_full ≠ "[Not available]") := by
      rcases h with h | h
      · exact fun hg => hg.1 h
      · exact fun hg => hg.2 h
    rw [if_neg hguard]
    split <;> rfl

/-- A concrete record for the witnesses. -/
def pEx : Paper := { title := "A Paper", url := "https://huggingface.co/papers/1" }

/-- A concrete extraction result whose both texts are skippable. -/
def dEx : Details := { abstract_short := "", abstract_full := "[Not available]" }

theorem translation_fallback_and_skip_witness :
    ((∀ i < 3, (fun _ : Nat => (none : Option String)) i = none) ∧
      translate_with_retry (fun _ => none) "texto" 3 = "texto")
    ∧ (process_paper_fresh (fun _ _ _ => none) ["zh-CN"] 3 pEx dEx).description_t =
        pEx.description_t
    ∧ (process_paper_fresh (fun _ _ _ => none) ["zh-CN"] 3 pEx dEx).abstractFull_t =
        pEx.abstractFull_t :=
  ⟨⟨fun _ _ => rfl, translation_fallback_and_skip.1 (fun _ => none) "texto" 3 (fun _ _ => rfl)⟩,
   translation_fallback_and_skip.2.1 (fun _ _ _ => none) ["zh-CN"] 3 pEx dEx (Or.inl rfl),
   translation_fallback_and_skip.2.2 (fun _ _ _ => none) ["zh-CN"] 3 pEx dEx (Or.inr rfl)⟩

/-- C8: a record whose detail processing raises is retained with its
pre-enrichment fields, an error marker string written into both synopsis
fields; and the failure is confined to its own result slot: every listing
position still receives its own outcome. -/
theorem failed_record_retained :
    (∀ (e : String) (tr : String → String → Nat → Option String) (langs : List String)
      (max_retries : Nat) (p : Paper),
      (process_paper_uncached (Except.error e) tr langs max_retries p).title = p.title ∧
      (process_paper_uncached (Except.error e) tr langs max_retries p).url = p.url ∧
      (process_paper_uncached (Except.error e) tr langs max_retries p).institution = p.institution ∧
      (process_paper_uncached (Except.error e) tr langs max_retries p).pub_date = p.pub_date ∧
      (process_paper_uncached (Except.error e) tr langs max_retries p).authors = p.authors ∧
      (process_paper_uncached (Except.error e) tr langs max_retries p).abstract =
        some ("[Error: " ++ e ++ "]") ∧
      (process_paper_uncached (Except.error e) tr langs max_retries p).abstract_short =
        some ("[Error: " ++ e ++ "]"))
    ∧ (∀ (outcome : Nat → Paper) (n : Nat) (perm : List Nat) (j : Nat),
        perm.Perm (List.range n) → j < n →
        (collectResults outcome perm n)[j]? = some (some (outcome j))) := by
  constructor
  · intro e tr langs max_retries p
    exact ⟨rfl, rfl, rfl, rfl, rfl, rfl, rfl⟩
  · intro outcome n perm j hperm hj
    exact collect_foldl_mem outcome perm (List.replicate n none) j (by simpa using hj)
      (hperm.mem_iff.mpr (List.mem_range.mpr hj))

theorem failed_record_retained_witness :
    ((process_paper_uncached (Except.error "boom") (fun _ _ _ => none) ["zh-CN"] 3 pEx).abstract =
        some "[Error: boom]" ∧
      (process_paper_uncached (Except.error "boom") (fun _ _ _ => none) ["zh-CN"] 3 pEx).title =
        pEx.title)
    ∧ (collectResults (fun i => { title := "t", url := "u", pub_date := some (i + 1) }) [2, 0, 1] 3)[1]? =
        some (some { title := "t", url := "u", pub_date := some 2 }) := by
  constructor
  · constructor
    · exact (failed_record_retained.1 "boom" (fun _ _ _ => none) ["zh-CN"] 3 pEx).2.2.2.2.2.1
    · exact (failed_record_retained.1 "boom" (fun _ _ _ => none) ["zh-CN"] 3 pEx).1
  · exact failed_record_retained.2 (fun i => { title := "t", url := "u", pub_date := some (i + 1) })
      3 [2, 0, 1] 1 (by decide) (by decide)

theorem lookupA_map_self (f : String → String) (langs : List String) (lang : String)
    (h : lang ∈ langs) :
    lookupA (langs.map (fun l => (l, f l))) lang = some (f lang) := by
  induction langs with
  | nil => simp at h
  | cons l ls ih =>
    by_cases hl : l = lang
    · subst hl
      simp [lookupA]
    · rcases List.mem_cons.mp h with h1 | h1
      · exact absurd h1.symm hl
      · simp only [List.map, lookupA, if_neg hl]
        exact ih h1

/-- C10: on the cached path the hydrated record carries, for every
configured language, both a translated-short and a translated-full field:
the cached translation for that language, or "" when the language is
absent from the cached mapping. -/
theorem cached_path_translations (langs : List String) (cached : CacheEntry) (p : Paper)
    (lang : String) (h : lang ∈ langs) :
    lookupA (process_paper_cached langs cached p).description_t lang =
      some ((lookupA cached.translations.descriptions lang).getD "") ∧
    lookupA (process_paper_cached langs cached p).abstractFull_t lang =
      some ((lookupA cached.translations.abstract_fulls lang).getD "") := by
  unfold process_paper_cached
  constructor
  · exact lookupA_map_self (fun l => (lookupA cached.translations.descriptions l).getD "") langs lang h
  · exact lookupA_map_self (fun l => (lookupA cached.translations.abstract_fulls l).getD "") langs lang h

/-- A concrete cache entry for the witnesses: one language translated,
the other missing from the stored mapping. -/
def ceEx : CacheEntry :=
  { title := "A Paper",
    url := "https://huggingface.co/papers/1",
    institution := "N/A",
    abstract := "full text",
    abstract_short := "short text",
    arxiv_abs := none,
    arxiv_pdf := none,
    authors := ["a"],
    pub_date := some 7,
    translations := { descriptions := [("zh-CN", "翻译")], abstract_fulls := [] } }

theorem cached_path_translations_witness :
    ("zh-CN" ∈ ["zh-CN", "es"] ∧
      lookupA (process_paper_cached ["zh-CN", "es"] ceEx pEx).description_t "zh-CN" =
        some "翻译")
    ∧ lookupA (process_paper_cached ["zh-CN", "es"] ceEx pEx).abstractFull_t "es" = some "" := by
  constructor
  · refine ⟨by decide, ?_⟩
    have h := (cached_path_translations ["zh-CN", "es"] ceEx pEx "zh-CN" (by decide)).1
    simpa using h
  · have h := (cached_path_translations ["zh-CN", "es"] ceEx pEx "es" (by decide)).2
    simpa using h

/-! ## The cache store (load_processed_papers / save_processed_papers,
generate_rss.py lines 50-127).  processed_dict is the identity -> last
timestamp map, paper_cache the identity -> full entry map; both are
insertion-ordered association lists (Python dicts).  Timestamps are the
naturals standing for the ISO-8601 strings (lexicographic = chronological
on those).  The JSON file becomes the CacheFile structure. -/

/-- The CacheEntry written for a new paper (save_processed_papers lines
87-102): paper.get defaults and the per-language translation mappings. -/
def mkCacheEntry (langs : List String) (p : Paper) : CacheEntry :=
  { title := p.title,
    url := p.url,
    institution := p.institution.getD "N/A",
    abstract := p.abstract.getD "",
    abstract_short := p.abstract_short.getD "",
    arxiv_abs := p.arxiv_abs,
    arxiv_pdf := p.arxiv_pdf,
    authors := p.authors,
    pub_date := p.pub_date,
    translations :=
      { descriptions := langs.map (fun lang => (lang, (lookupA p.description_t lang).getD "")),
        abstract_fulls := langs.map (fun lang => (lang, (lookupA p.abstractFull_t lang).getD "")) } }

/-- The merge phase of save_processed_papers (lines 83-103): walk the run's
papers; an identity not yet in processed_dict is stamped with the current
time and gets a full cache entry; an identity already present is left
untouched. -/
def mergeNewPapers (langs : List String) (now : Nat) :
    List Paper → List (String × Nat) → List (String × CacheEntry) →
    List (String × Nat) × List (String × CacheEntry)
  | [], pd, pc => (pd, pc)
  | p :: rest, pd, pc =>
    match lookupA pd p.url with
    | some _ => mergeNewPapers langs now rest pd pc
    | none =>
      mergeNewPapers langs now rest (pd ++ [(p.url, now)]) (updateA pc p.url (mkCacheEntry langs p))

/-- Sort key of the prune phase: sorted(items, key=lambda x: x[1],
reverse=True) — newest timestamp first, stable like Python's sort. -/
def tsGe (a b : String × Nat) : Prop := b.2 ≤ a.2

instance : DecidableRel tsGe := fun a b => Nat.decLe b.2 a.2

instance : IsTotal (String × Nat) tsGe := ⟨fun a b => Nat.le_total b.2 a.2⟩

instance : IsTrans (String × Nat) tsGe := ⟨fun _ _ _ h1 h2 => Nat.le_trans h2 h1⟩

/-- The prune phase of save_processed_papers (lines 107-115): when over
capacity, keep the most recent cap identities (Python rebuilds the dicts by
iterating the kept-urls set, whose order is unspecified; the model keeps
the sorted order for the timestamp map and the stored order for the entry
map — the same key -> value mappings). -/
def pruneCache (pd : List (String × Nat)) (pc : List (String × CacheEntry)) (cap : Nat) :
    List (String × Nat) × List (String × CacheEntry) :=
  if pd.length > cap then
    let kept := (pd.insertionSort tsGe).take cap
    (kept, pc.filter (fun e => (kept.map Prod.fst).contains e.1))
  else (pd, pc)

/-- The JSON object written by save_processed_papers (lines 117-124). -/
structure CacheFile where
  version : Nat
  papers : List (String × Nat)
  paper_cache : List (String × CacheEntry)
  last_updated : Nat
deriving DecidableEq, Repr

/-- save_processed_papers (lines 77-127): merge, prune when over capacity,
write the versioned file. -/
def save_processed_papers (langs : List String) (now : Nat) (papers : List Paper)
    (pd : List (String × Nat)) (pc : List (String × CacheEntry)) (cap ver : Nat) : CacheFile :=
  let merged := mergeNewPapers langs now papers pd pc
  let pruned := pruneCache merged.1 merged.2 cap
  { version := ver, papers := pruned.1, paper_cache := pruned.2, last_updated := now }

/-- load_processed_papers (lines 50-75): a missing or unreadable file and a
version mismatch both yield the empty cache; otherwise the two stored maps
(with Python's .get defaults for missing keys not modelled: the save path
always writes both). -/
def load_processed_papers (ver : Nat) (file : Option CacheFile) :
    List (String × Nat) × List (String × CacheEntry) :=
  match file with
  | none => ([], [])
  | some f => if f.version ≠ ver then ([], []) else (f.papers, f.paper_cache)

/-! ### Merge leaves existing entries untouched (towards C7 and C1) -/

theorem mergeNewPapers_keep (langs : List String) (now : Nat) :
    ∀ (papers : List Paper) (pd : List (String × Nat)) (pc : List (String × CacheEntry))
      (url : String) (t : Nat), lookupA pd url = some t →
    lookupA (mergeNewPapers langs now papers pd pc).1 url = some t ∧
    lookupA (mergeNewPapers langs now papers pd pc).2 url = lookupA pc url := by
  intro papers
  induction papers with
  | nil =>
    intro pd pc url t h
    exact ⟨h, rfl⟩
  | cons p rest ih =>
    intro pd pc url t h
    simp only [mergeNewPapers]
    cases hl : lookupA pd p.url with
    | some v =>
      simp only [hl]
      exact ih pd pc url t h
    | none =>
      simp only [hl]
      have hne : p.url ≠ url := by
        intro he
        rw [he, h] at hl
        cases hl
      have h1 : lookupA (pd ++ [(p.url, now)]) url = some t := lookupA_append_left _ _ _ _ h
      have hrec := ih (pd ++ [(p.url, now)]) (updateA pc p.url (mkCacheEntry langs p)) url t h1
      refine ⟨hrec.1, ?_⟩
      rw [hrec.2, lookupA_updateA_ne _ _ _ _ hne]

/-- C7: merge never overwrites: an identity present in the pre-merge cache
keeps its timestamp-map value and its cache entry (hence its stored
first-seen/publication timestamp); any identity whose value in either map
changed was absent from the pre-merge cache. -/
theorem merge_append_only (langs : List String) (now : Nat) (papers : List Paper)
    (pd : List (String × Nat)) (pc : List (String × CacheEntry)) :
    (∀ url t, lookupA pd url = some t →
      lookupA (mergeNewPapers langs now papers pd pc).1 url = some t ∧
      lookupA (mergeNewPapers langs now papers pd pc).2 url = lookupA pc url)
    ∧ (∀ url, lookupA (mergeNewPapers langs now papers pd pc).1 url ≠ lookupA pd url →
        lookupA pd url = none)
    ∧ (∀ url, lookupA (mergeNewPapers langs now papers pd pc).2 url ≠ lookupA pc url →
        lookupA pd url = none) := by
  refine ⟨fun url t h => mergeNewPapers_keep langs now papers pd pc url t h, ?_, ?_⟩
  · intro url hne
    cases hl : lookupA pd url with
    | none => rfl
    | some t =>
      have := (mergeNewPapers_keep langs now papers pd pc url t hl).1
      rw [this, hl] at hne
      exact absurd rfl hne
  · intro url hne
    cases hl : lookupA pd url with
    | none => rfl
    | some t =>
      have := (mergeNewPapers_keep langs now papers pd pc url t hl).2
      rw [this] at hne
      exact absurd rfl hne

/-- Pre-merge cache used in the C7 witness. -/
def pdEx : List (String × Nat) := [("https://huggingface.co/papers/1", 5)]

/-- Pre-merge entry map used in the C7 witness. -/
def pcEx : List (String × CacheEntry) := [("https://huggingface.co/papers/1", ceEx)]

theorem merge_append_only_witness :
    (lookupA pdEx "https://huggingface.co/papers/1" = some 5)
    ∧ lookupA (mergeNewPapers ["zh-CN"] 9 [pEx] pdEx pcEx).1 "https://huggingface.co/papers/1" =
        some 5
    ∧ lookupA (mergeNewPapers ["zh-CN"] 9 [pEx] pdEx pcEx).2 "https://huggingface.co/papers/1" =
        lookupA pcEx "https://huggingface.co/papers/1" := by
  refine ⟨by decide, ?_, ?_⟩
  · exact ((merge_append_only ["zh-CN"] 9 [pEx] pdEx pcEx).1
      "https://huggingface.co/papers/1" 5 (by decide)).1
  · exact ((merge_append_only ["zh-CN"] 9 [pEx] pdEx pcEx).1
      "https://huggingface.co/papers/1" 5 (by decide)).2

/-- C6: persisting a cache that fits within capacity and loading it back
yields the identical entry maps; loading a file whose version tag differs
from the expected version yields the empty cache, whatever its content. -/
theorem cache_round_trip :
    (∀ (langs : List String) (now : Nat) (pd : List (String × Nat))
      (pc : List (String × CacheEntry)) (cap ver : Nat),
      pd.length ≤ cap →
      load_processed_papers ver (some (save_processed_papers langs now [] pd pc cap ver)) =
        (pd, pc))
    ∧ (∀ (ver : Nat) (f : CacheFile), f.version ≠ ver →
        load_processed_papers ver (some f) = ([], [])) := by
  constructor
  · intro langs now pd pc cap ver hlen
    simp only [save_processed_papers, mergeNewPapers, pruneCache]
    rw [if_neg (by omega : ¬ pd.length > cap)]
    simp only [load_processed_papers]
    rw [if_neg (by simp)]
  · intro ver f h
    simp only [load_processed_papers]
    rw [if_pos h]

theorem cache_round_trip_witness :
    (pdEx.length ≤ 3 ∧
      load_processed_papers 1 (some (save_processed_papers ["zh-CN"] 9 [] pdEx pcEx 3 1)) =
        (pdEx, pcEx))
    ∧ load_processed_papers 1
        (some { version := 2, papers := pdEx, paper_cache := pcEx, last_updated := 9 }) =
        ([], []) := by
  refine ⟨⟨by decide, ?_⟩, ?_⟩
  · exact cache_round_trip.1 ["zh-CN"] 9 pdEx pcEx 3 1 (by decide)
  · exact cache_round_trip.2 1 { version := 2, papers := pdEx, paper_cache := pcEx, last_updated := 9 }
      (by decide)

/-! ### Merge followed by prune (C1).
The spec asserts that a merge counts as a touch, so a re-merged pre-existing
identity could never be pruned.  In the code the merge phase skips
identities already in processed_dict without refreshing their timestamp, so
a stale re-merged identity can be pruned; what prune can never drop (under
the natural side conditions) is an identity freshly inserted by the same
call, since those carry the newest timestamp. -/

theorem mergeNewPapers_mem (langs : List String) (now : Nat) :
    ∀ (papers : List Paper) (pd : List (String × Nat)) (pc : List (String × CacheEntry))
      (e : String × Nat), e ∈ (mergeNewPapers langs now papers pd pc).1 →
    e ∈ pd ∨ e.2 = now := by
  intro papers
  induction papers with
  | nil =>
    intro pd pc e he
    exact Or.inl he
  | cons p rest ih =>
    intro pd pc e he
    simp only [mergeNewPapers] at he
    cases hl : lookupA pd p.url with
    | some v =>
      rw [hl] at he
      exact ih pd pc e he
    | none =>
      rw [hl] at he
      rcases ih _ _ e he with h1 | h1
      · rcases List.mem_append.mp h1 with h2 | h2
        · exact Or.inl h2
        · rcases List.mem_singleton.mp h2 with rfl
          exact Or.inr rfl
      · exact Or.inr h1

theorem mergeNewPapers_inserts (langs : List String) (now : Nat) :
    ∀ (papers : List Paper) (pd : List (String × Nat)) (pc : List (String × CacheEntry))
      (url : String), lookupA pd url = none → url ∈ papers.map Paper.url →
    lookupA (mergeNewPapers langs now papers pd pc).1 url = some now ∧
    ∃ ce, lookupA (mergeNewPapers langs now papers pd pc).2 url = some ce := by
  intro papers
  induction papers with
  | nil =>
    intro pd pc url _ hmem
    simp at hmem
  | cons p rest ih =>
    intro pd pc url habs hmem
    simp only [mergeNewPapers]
    cases hl : lookupA pd p.url with
    | some v =>
      simp only [hl]
      have hne : url ≠ p.url := by
        intro he
        rw [← he, habs] at hl
        cases hl
      have hmem' : url ∈ rest.map Paper.url := by
        rw [List.map_cons] at hmem
        rcases List.mem_cons.mp hmem with h1 | h1
        · exact absurd h1 hne
        · exact h1
      exact ih pd pc url habs hmem'
    | none =>
      simp only [hl]
      by_cases he : url = p.url
      · subst he
        have hpd1 : lookupA (pd ++ [(p.url, now)]) p.url = some now := by
          rw [lookupA_append_right _ _ _ habs]
          simp [lookupA]
        have hpc1 : lookupA (updateA pc p.url (mkCacheEntry langs p)) p.url =
            some (mkCacheEntry langs p) := lookupA_updateA_self _ _ _
        have hkeep := mergeNewPapers_keep langs now rest
          (pd ++ [(p.url, now)]) (updateA pc p.url (mkCacheEntry langs p)) p.url now hpd1
        exact ⟨hkeep.1, mkCacheEntry langs p, hkeep.2.trans hpc1⟩
      · have hpd1 : lookupA (pd ++ [(p.url, now)]) url = none := by
          rw [lookupA_append_right _ _ _ habs]
          simp [lookupA, Ne.symm he]
        have hmem' : url ∈ rest.map Paper.url := by
          rw [List.map_cons] at hmem
          rcases List.mem_cons.mp hmem with h1 | h1
          · exact absurd h1 he
          · exact h1
        exact ih _ _ url hpd1 hmem'

theorem sorted_take_keeps_now (now : Nat) :
    ∀ (S : List (String × Nat)) (cap : Nat), List.Sorted tsGe S → (∀ e ∈ S, e.2 ≤ now) →
    (S.filter (fun e => e.2 == now)).length ≤ cap →
    ∀ x ∈ S, x.2 = now → x ∈ S.take cap := by
  intro S
  induction S with
  | nil =>
    intro cap _ _ _ x hx
    simp at hx
  | cons y T ih =>
    intro cap hsort hle hcnt x hx hxnow
    cases cap with
    | zero =>
      exfalso
      have hxf : x ∈ (y :: T).filter (fun e => e.2 == now) :=
        List.mem_filter.mpr ⟨hx, by simp [hxnow]⟩
      have hpos : 0 < ((y :: T).filter (fun e => e.2 == now)).length :=
        List.length_pos.mpr (List.ne_nil_of_mem hxf)
      omega
    | succ c =>
      rcases List.mem_cons.mp hx with rfl | hxT
      · rw [List.take_succ_cons]
        exact List.mem_cons_self _ _
      · have hyx : tsGe y x := List.rel_of_pairwise_cons hsort hxT
        have hy2 : y.2 = now := by
          have h1 : y.2 ≤ now := hle y (List.mem_cons_self _ _)
          have h2 : now ≤ y.2 := hxnow ▸ hyx
          omega
        have hfilter : (y :: T).filter (fun e => e.2 == now) =
            y :: T.filter (fun e => e.2 == now) := by
          simp [List.filter, hy2]
        have hcnt' : (T.filter (fun e => e.2 == now)).length ≤ c := by
          rw [hfilter] at hcnt
          simpa using hcnt
        have hrec := ih c hsort.of_cons (fun e hem => hle e (List.mem_cons_of_mem _ hem))
          hcnt' x hxT hxnow
        rw [List.take_succ_cons]
        exact List.mem_cons_of_mem _ hrec

/-- C1 (amended): the claim fails for a pre-existing identity that is
re-merged — merge does not refresh its timestamp, so prune can drop it
(see the counterexample).  What holds is: merge followed by prune never
removes an identity freshly inserted by the same call, provided every
pre-existing timestamp is strictly older than the merge timestamp and at
most capacity-many entries carry the merge timestamp. -/
theorem merge_prune_keeps_fresh (langs : List String) (now : Nat) (papers : List Paper)
    (pd : List (String × Nat)) (pc : List (String × CacheEntry)) (cap : Nat) (url : String)
    (hold : ∀ e ∈ pd, e.2 < now)
    (hcap : (((mergeNewPapers langs now papers pd pc).1).filter
        (fun e => e.2 == now)).length ≤ cap)
    (habs : lookupA pd url = none)
    (hin : url ∈ papers.map Paper.url) :
    url ∈ ((pruneCache (mergeNewPapers langs now papers pd pc).1
        (mergeNewPapers langs now papers pd pc).2 cap).1.map Prod.fst)
    ∧ url ∈ ((pruneCache (mergeNewPapers langs now papers pd pc).1
        (mergeNewPapers langs now papers pd pc).2 cap).2.map Prod.fst) := by
  obtain ⟨hpd, ce, hpc⟩ := mergeNewPapers_inserts langs now papers pd pc url habs hin
  have hxmem : (url, now) ∈ (mergeNewPapers langs now papers pd pc).1 :=
    mem_of_lookupA _ _ _ hpd
  have hcemem : (url, ce) ∈ (mergeNewPapers langs now papers pd pc).2 :=
    mem_of_lookupA _ _ _ hpc
  unfold pruneCache
  by_cases hlen : (mergeNewPapers langs now papers pd pc).1.length > cap
  · rw [if_pos hlen]
    have hsort : List.Sorted tsGe ((mergeNewPapers langs now papers pd pc).1.insertionSort tsGe) :=
      List.sorted_insertionSort tsGe _
    have hperm : ((mergeNewPapers langs now papers pd pc).1.insertionSort tsGe).Perm
        (mergeNewPapers langs now papers pd pc).1 := List.perm_insertionSort tsGe _
    have hle : ∀ e ∈ (mergeNewPapers langs now papers pd pc).1.insertionSort tsGe, e.2 ≤ now := by
      intro e hem
      rcases mergeNewPapers_mem langs now papers pd pc e (hperm.mem_iff.mp hem) with h1 | h1
      · exact Nat.le_of_lt (hold e h1)
      · omega
    have hcnt : (((mergeNewPapers langs now papers pd pc).1.insertionSort tsGe).filter
        (fun e => e.2 == now)).length ≤ cap := by
      have := (hperm.filter (fun e => e.2 == now)).length_eq
      omega
    have hx' : (url, now) ∈ (mergeNewPapers langs now papers pd pc).1.insertionSort tsGe :=
      hperm.mem_iff.mpr hxmem
    have htake := sorted_take_keeps_now now _ cap hsort hle hcnt (url, now) hx' rfl
    have hkept : url ∈ (((mergeNewPapers langs now papers pd pc).1.insertionSort tsGe).take
        cap).map Prod.fst := List.mem_map.mpr ⟨(url, now), htake, rfl⟩
    refine ⟨hkept, ?_⟩
    refine List.mem_map.mpr ⟨(url, ce), List.mem_filter.mpr ⟨hcemem, ?_⟩, rfl⟩
    simpa [List.contains] using List.elem_eq_true_of_mem hkept
  · rw [if_neg hlen]
    exact ⟨List.mem_map.mpr ⟨(url, now), hxmem, rfl⟩, List.mem_map.mpr ⟨(url, ce), hcemem, rfl⟩⟩

/-- Pre-existing, re-merged paper of the C1 counterexample. -/
def paperA : Paper := { title := "ta", url := "a" }

/-- Fresh paper of the C1 counterexample. -/
def paperC : Paper := { title := "tc", url := "c" }

/-- Pre-merge timestamp map of the C1 counterexample: identity a is the
oldest entry, b newer. -/
def pdCx : List (String × Nat) := [("a", 0), ("b", 1)]

/-- C1 counterexample: identity a is present in the pre-merge cache and
appears among the merged records, yet merge followed by prune at capacity 2
removes it — merge skipped it without refreshing its timestamp, and prune
kept the two newest timestamps (c at the merge time 10, and b). -/
theorem merge_prune_counterexample :
    lookupA pdCx "a" = some 0 ∧
    "a" ∈ [paperA, paperC].map Paper.url ∧
    lookupA (pruneCache (mergeNewPapers [] 10 [paperA, paperC] pdCx []).1
        (mergeNewPapers [] 10 [paperA, paperC] pdCx []).2 2).1 "a" = none := by
  decide

theorem merge_prune_keeps_fresh_witness :
    ((∀ e ∈ [(("b", 1) : String × Nat)], e.2 < 10) ∧
      (((mergeNewPapers [] 10 [paperC] [("b", 1)] []).1).filter
        (fun e => e.2 == 10)).length ≤ 1 ∧
      lookupA [(("b", 1) : String × Nat)] "c" = none ∧
      "c" ∈ [paperC].map Paper.url)
    ∧ "c" ∈ ((pruneCache (mergeNewPapers [] 10 [paperC] [("b", 1)] []).1
        (mergeNewPapers [] 10 [paperC] [("b", 1)] []).2 1).1.map Prod.fst)
    ∧ "c" ∈ ((pruneCache (mergeNewPapers [] 10 [paperC] [("b", 1)] []).1
        (mergeNewPapers [] 10 [paperC] [("b", 1)] []).2 1).2.map Prod.fst) := by
  refine ⟨⟨by decide, by decide, by decide, by decide⟩, ?_, ?_⟩
  · exact (merge_prune_keeps_fresh [] 10 [paperC] [("b", 1)] [] 1 "c"
      (by decide) (by decide) (by decide) (by decide)).1
  · exact (merge_prune_keeps_fresh [] 10 [paperC] [("b", 1)] [] 1 "c"
      (by decide) (by decide) (by decide) (by decide)).2

/-! ### Concrete extractor run for the C2 witness -/

/-- A small event stream: one complete article with heading, link and title. -/
def exEvents : List HtmlEvent :=
  [HtmlEvent.startTag "article" [],
   HtmlEvent.startTag "h3" [],
   HtmlEvent.startTag "a" [("href", "/papers/1")],
   HtmlEvent.textData "A Title",
   HtmlEvent.endTag "a",
   HtmlEvent.endTag "h3",
   HtmlEvent.endTag "article"]

/-- The machine state after running exEvents. -/
def exState : ExtractorState :=
  { papers := [{ url := "https://huggingface.co/papers/1", title := "A Title",
                 institution := "N/A" }],
    current_paper := none,
    in_article := false,
    in_h3 := false,
    in_a := false,
    capture_text := false,
    current_text := "A Title",
    in_institution_span := false,
    institution_text := "" }

/-- An open article whose scratch record has a url but no title. -/
def exDropState : ExtractorState :=
  { papers := [],
    current_paper := some { url := some "https://huggingface.co/papers/2", title := none },
    in_article := true,
    in_h3 := false,
    in_a := false,
    capture_text := false,
    current_text := "",
    in_institution_span := false,
    institution_text := "" }

theorem extractor_emits_nonempty_witness :
    (runExtractor exEvents = Except.ok exState ∧
      ({ url := "https://huggingface.co/papers/1", title := "A Title",
         institution := "N/A" } : RawPaper).url ≠ "" ∧
      ({ url := "https://huggingface.co/papers/1", title := "A Title",
         institution := "N/A" } : RawPaper).title ≠ "")
    ∧ ∃ st', handle_endtag exDropState "article" = Except.ok st' ∧
        st'.papers = exDropState.papers := by
  constructor
  · refine ⟨by rfl, ?_⟩
    exact extractor_emits_nonempty.1 exEvents exState (by rfl) _ (by decide)
  · exact extractor_emits_nonempty.2 exDropState
      { url := some "https://huggingface.co/papers/2", title := none }
      (by decide) (Or.inr (by decide))

end HFPapers
